import Mathlib

/-!
Shallow embedding of the core of the `go-chat-i-guess` chat broker
(`server.go`, `channel.go`, `user.go`, `error.go`) and proofs about it.

Modelling conventions:
* Go maps (`map[string]V`) are modelled as association lists
  `List (String × V)` with unique keys; `mget`, `mput` and `mdel` mirror
  map lookup, store and `delete`.
* Wall-clock instants (`time.Time`) are modelled as `Nat`; the textual
  rendering produced by `time.Time.Format` is modelled by `formatDate`,
  whose exact digits are irrelevant to every property considered here.
* Side effects on a user's `Conn` (calls to `SendStr` and `Close`) are
  made observable as an explicit list of `effect`s returned by the
  functions that perform them.
* A Go runtime panic (in particular the nil-pointer dereference reachable
  from `handleMessage`) is modelled by `Option`: `none` is a panic.
* Goroutines and channel blocking are not modelled; the functions below
  are the bodies the goroutines execute, applied to explicit state.
-/

namespace GoChat

/-- Association-list lookup, mirroring Go's `m[k]` (returning the zero
value is modelled by `Option`). -/
def mget {β : Type} (m : List (String × β)) (k : String) : Option β :=
  match m with
  | [] => none
  | (k', v) :: rest => if k' = k then some v else mget rest k

/-- Association-list store, mirroring Go's `m[k] = v` (replaces the
existing binding or appends a fresh one). -/
def mput {β : Type} (m : List (String × β)) (k : String) (v : β) :
    List (String × β) :=
  match m with
  | [] => [(k, v)]
  | (k', v') :: rest =>
      if k' = k then (k, v) :: rest else (k', v') :: mput rest k v

/-- Association-list removal, mirroring Go's `delete(m, k)`: every
binding of key `k` disappears (Go maps hold at most one). -/
def mdel {β : Type} (m : List (String × β)) (k : String) :
    List (String × β) :=
  match m with
  | [] => []
  | (k', v) :: rest =>
      if k' = k then mdel rest k else (k', v) :: mdel rest k

theorem mget_mdel_self {β : Type} (m : List (String × β)) (k : String) :
    mget (mdel m k) k = none := by
  induction m with
  | nil => rfl
  | cons kv rest ih =>
      by_cases h : kv.1 = k
      · simpa [mdel, h] using ih
      · simpa [mdel, h, mget] using ih

theorem mget_mdel_ne {β : Type} (m : List (String × β)) (k k' : String)
    (h : k' ≠ k) : mget (mdel m k) k' = mget m k' := by
  induction m with
  | nil => rfl
  | cons kv rest ih =>
      by_cases hk : kv.1 = k
      · have h2 : ¬ kv.1 = k' := by rw [hk]; exact Ne.symm h
        simpa [mdel, hk, mget, h2, Ne.symm h] using ih
      · by_cases hk' : kv.1 = k'
        · simp [mdel, hk, mget, hk', h]
        · simpa [mdel, hk, mget, hk'] using ih

theorem mget_filter_none {β : Type} (m : List (String × β)) (k : String)
    (p : String × β → Bool) (h : mget m k = none) :
    mget (m.filter p) k = none := by
  induction m with
  | nil => rfl
  | cons kv rest ih =>
      by_cases hk : kv.1 = k
      · simp [mget, hk] at h
      · simp only [mget, hk, if_neg, ite_false] at h
        by_cases hp : p kv
        · simpa [List.filter_cons, hp, mget, hk] using ih h
        · simpa [List.filter_cons, hp] using ih h

theorem mget_none_of_not_mem {β : Type} (m : List (String × β))
    (k : String) (h : k ∉ m.map Prod.fst) : mget m k = none := by
  induction m with
  | nil => rfl
  | cons kv rest ih =>
      simp only [List.map, List.mem_cons] at h
      push_neg at h
      have hk : ¬ kv.1 = k := fun h' => h.1 h'.symm
      simpa [mget, hk] using ih h.2

theorem mget_filter_of_nodup {β : Type} (m : List (String × β))
    (k : String) (v : β) (p : String × β → Bool)
    (hnd : (m.map Prod.fst).Nodup) (h : mget m k = some v) :
    mget (m.filter p) k = if p (k, v) then some v else none := by
  induction m with
  | nil => simp [mget] at h
  | cons kv rest ih =>
      obtain ⟨k0, v0⟩ := kv
      simp only [List.map_cons, List.nodup_cons] at hnd
      by_cases hk : k0 = k
      · subst hk
        simp only [mget, if_pos rfl] at h
        injection h with hv
        subst hv
        by_cases hp : p (k0, v0)
        · simp [List.filter_cons, hp, mget]
        · have h0 : mget rest k0 = none :=
            mget_none_of_not_mem rest k0 hnd.1
          simp [List.filter_cons, hp, mget_filter_none rest k0 p h0]
      · simp only [mget, hk, if_neg, ite_false] at h
        by_cases hp : p (k0, v0)
        · simpa [List.filter_cons, hp, mget, hk] using ih hnd.2 h
        · simpa [List.filter_cons, hp] using ih hnd.2 h

theorem mget_mem {β : Type} (m : List (String × β)) (k : String) (v : β)
    (h : mget m k = some v) : (k, v) ∈ m := by
  induction m with
  | nil => simp [mget] at h
  | cons kv rest ih =>
      by_cases hk : kv.1 = k
      · simp only [mget, hk, if_pos rfl] at h
        obtain ⟨k0, v0⟩ := kv
        cases hk
        cases h
        exact List.mem_cons_self _ _
      · simp only [mget, hk, if_neg] at h
        exact List.mem_cons_of_mem _ (ih h)

theorem mget_isSome_of_mem_keys {β : Type} (m : List (String × β))
    (k : String) (h : k ∈ m.map Prod.fst) : (mget m k).isSome := by
  induction m with
  | nil => simp at h
  | cons kv rest ih =>
      simp only [List.map, List.mem_cons] at h
      by_cases hk : kv.1 = k
      · simp [mget, hk]
      · have : k ∈ rest.map Prod.fst := by
          rcases h with h | h
          · exact absurd h.symm hk
          · exact h
        simpa [mget, hk] using ih this

theorem mget_mput_self {β : Type} (m : List (String × β)) (k : String)
    (v : β) : mget (mput m k v) k = some v := by
  induction m with
  | nil => simp [mput, mget]
  | cons kv rest ih =>
      by_cases hk : kv.1 = k
      · simp [mput, hk, mget]
      · simpa [mput, hk, mget] using ih

theorem mget_mput_ne {β : Type} (m : List (String × β)) (k k' : String)
    (v : β) (h : k' ≠ k) : mget (mput m k v) k' = mget m k' := by
  induction m with
  | nil => simp [mput, mget, Ne.symm h]
  | cons kv rest ih =>
      by_cases hk : kv.1 = k
      · have h1 : ¬ k = k' := Ne.symm h
        have h2 : ¬ kv.1 = k' := by rw [hk]; exact h1
        simp [mput, hk, mget, h1, h2]
      · by_cases hk' : kv.1 = k'
        · simp [mput, hk, mget, hk', h]
        · simpa [mput, hk, mget, hk'] using ih

/-! ### Data model (error.go, channel.go, user.go, server.go) -/

/-- Error values of the package, from `error.go` (`type ChatError uint`). -/
inductive ChatError where
  | InvalidToken
  | IdleChannel
  | DuplicatedChannel
  | InvalidChannel
  | ChannelClosed
  | UserAlreadyConnected
  | ConnEOF
  | TestTimeout
  | InvalidUser
deriving DecidableEq, Repr

/-- A chat message with its metadata, from `channel.go` (`type message`).
`Date` is the `time.Time` instant, modelled as a `Nat` tick count. -/
structure message where
  Date : Nat
  Message : String
  From : String
  To : String
deriving DecidableEq, Repr

/-- Stand-in for the string produced by Go's
`Date.Format("2006-01-02 - 15:04:05 (-0700)")`; the precise digits of the
timestamp rendering play no role in any property below. -/
def formatDate (t : Nat) : String :=
  toString t

/-- Encode the message into a string that may be sent to users
(`message.Encode` in channel.go). -/
def message.Encode (m : message) : String :=
  let t := formatDate m.Date
  let u := if m.From.length > 0 then m.From ++ ": " else ""
  t ++ " > " ++ u ++ m.Message

/-- A custom message encoder (`MessageEncoder.Encode`): a function of the
date, text, sender and recipient.  The Go interface also receives the
`ChatChannel` handle; none of the properties below depend on it. -/
def EncFun : Type :=
  Nat → String → String → String → String

/-- A user connected to a channel, from `user.go` (`type user`).  Its
`Conn` is modelled by `connOk`: whether `conn.SendStr` currently
succeeds.  `running` is the atomic one-shot flag of `user.Close`. -/
structure user where
  name : String
  connOk : Bool
  running : Bool
deriving DecidableEq, Repr

/-- A chat channel, from `channel.go` (`type channel`).  `recv` is the
buffered inbound Go channel (as a FIFO list), `stopClosed` records that
the `stop` channel has been closed. -/
structure channel where
  name : String
  encoder : Option EncFun
  recv : List message
  log : List message
  users : List (String × user)
  running : Bool
  stopClosed : Bool

/-- Observable calls made on users' `Conn` objects. -/
inductive effect where
  | send (username payload : String)
  | connClose (username : String)
deriving DecidableEq, Repr

/-- Map-key/user-name coherence: every entry of `c.users` stores a user
whose `name` equals its key, as `ConnectUser` guarantees. -/
def WF (c : channel) : Prop :=
  ∀ p ∈ c.users, p.2.name = p.1

/-- IsClosed check if the channel is closed (`channel.IsClosed`):
the atomic `running` word read as `== 0`. -/
def channel.IsClosed (c : channel) : Bool :=
  !c.running

/-- newMessage queue a new message on `c.recv`, stamping it with the
current time (`channel.newMessage`). -/
def newMessage (now : Nat) (c : channel) (msg from_ to_ : String) :
    channel :=
  { c with recv := c.recv ++ [⟨now, msg, from_, to_⟩] }

/-- NewBroadcast queue a broadcast from a sender (`channel.NewBroadcast`). -/
def NewBroadcast (now : Nat) (c : channel) (msg from_ : String) :
    channel :=
  newMessage now c msg from_ ""

/-- NewSystemBroadcast queue a system message (`channel.NewSystemBroadcast`). -/
def NewSystemBroadcast (now : Nat) (c : channel) (msg : String) :
    channel :=
  newMessage now c msg "" ""

/-- NewSystemWhisper queue a system message to one receiver
(`channel.NewSystemWhisper`). -/
def NewSystemWhisper (now : Nat) (c : channel) (msg to_ : String) :
    channel :=
  newMessage now c msg "" to_

/-- Close the user's connection, one-shot via CAS on `running`
(`user.Close`; it always returns `nil`).  The `Conn.Close` call is
reported as an effect. -/
def user.CloseU (u : user) : user × List effect :=
  if u.running then
    ({ u with running := false }, [effect.connClose u.name])
  else
    (u, [])

/-- RemoveUserUnsafe remove the user `username` from this channel
(`channel.RemoveUserUnsafe`): close it, delete it from the map and queue
an exit system broadcast.  Go reads `c.users[username]` and calls a
method on the result, so a missing entry is a nil-pointer dereference:
`none` models that panic. -/
def RemoveUserUnsafe (now : Nat) (c : channel) (username : String) :
    Option (channel × List effect) :=
  match mget c.users username with
  | none => none
  | some u =>
      let closed := u.CloseU
      let c1 := { c with users := mdel c.users username }
      let c2 := NewSystemBroadcast now c1 (username ++ " exited " ++ c.name ++ "...")
      some (c2, closed.2)

/-- messageUser send `msgStr` to the user `u`
(`channel.messageUserUsafe`).  The argument is the possibly-nil `*user`
obtained from the map; calling `SendStr` on nil panics (`none`).  If the
send fails the user is removed from the channel. -/
def messageUserUsafe (now : Nat) (c : channel) (u : Option user)
    (msgStr : String) : Option (channel × List effect) :=
  match u with
  | none => none
  | some u =>
      if u.connOk then
        some (c, [effect.send u.name msgStr])
      else
        match RemoveUserUnsafe now c u.name with
        | none => none
        | some (c', effs) => some (c', effect.send u.name msgStr :: effs)

/-- The `for k := range c.users` loop shared by the broadcast arm of
`handleMessage` and by `checkConnections`: send `msgStr` to each listed
user, looking each key up in the current map (failed sends remove the
user as the loop goes). -/
def sendLoop (now : Nat) (c : channel) (keys : List String)
    (msgStr : String) : Option (channel × List effect) :=
  match keys with
  | [] => some (c, [])
  | k :: rest =>
      match messageUserUsafe now c (mget c.users k) msgStr with
      | none => none
      | some (c1, effs) =>
          match sendLoop now c1 rest msgStr with
          | none => none
          | some (c2, effs2) => some (c2, effs ++ effs2)

/-- handleMessage encode the received message and dispatch it
(`channel.handleMessage`): append broadcasts to the log, render via the
custom encoder (empty result cancels the send) or `message.Encode`,
then deliver to the named recipient or to every user. -/
def handleMessage (now : Nat) (c : channel) (msg : message) :
    Option (channel × List effect) :=
  let c1 := if msg.To.length = 0 then { c with log := c.log ++ [msg] } else c
  let rendered : Option String :=
    match c1.encoder with
    | none => some msg.Encode
    | some enc =>
        let s := enc msg.Date msg.Message msg.From msg.To
        if s.length = 0 then none else some s
  match rendered with
  | none => some (c1, [])
  | some msgStr =>
      if msg.To.length > 0 then
        messageUserUsafe now c1 (mget c1.users msg.To) msgStr
      else
        sendLoop now c1 (c1.users.map Prod.fst) msgStr

/-- The user-removal loop of `channel.Close`:
`for k := range c.users { c.RemoveUserUnsafe(k) }`. -/
def closeUsersLoop (now : Nat) (c : channel) (keys : List String) :
    Option (channel × List effect) :=
  match keys with
  | [] => some (c, [])
  | k :: rest =>
      match RemoveUserUnsafe now c k with
      | none => none
      | some (c1, effs) =>
          match closeUsersLoop now c1 rest with
          | none => none
          | some (c2, effs2) => some (c2, effs ++ effs2)

/-- Close the channel, remove every user and stop the goroutine
(`channel.Close`): one-shot via `CompareAndSwapUint32(&c.running, 1, 0)`;
always returns `nil` (here: `some`). -/
def channel.CloseC (now : Nat) (c : channel) :
    Option (channel × List effect) :=
  if c.running then
    let c1 := { c with running := false, stopClosed := true }
    closeUsersLoop now c1 (c1.users.map Prod.fst)
  else
    some (c, [])

/-- checkConnections send an empty probe to every connected user and
close the channel if nobody is left (`channel.checkConnections`). -/
def checkConnections (now : Nat) (c : channel) :
    Option (channel × List effect) :=
  match sendLoop now c (c.users.map Prod.fst) "" with
  | none => none
  | some (c1, effs) =>
      if c1.users.length = 0 then
        match channel.CloseC now c1 with
        | none => none
        | some (c2, effs2) => some (c2, effs ++ effs2)
      else
        some (c1, effs)

/-- ConnectUser add a new user to the channel (`channel.ConnectUser`):
reject a duplicate name with `UserAlreadyConnected`, otherwise store the
user and queue the entry system broadcast.  `connOk` stands for the
non-nil `Conn` handed in by the caller. -/
def ConnectUser (now : Nat) (c : channel) (username : String)
    (connOk : Bool) : Except ChatError channel :=
  let u : user := { name := username, connOk := connOk, running := true }
  if (mget c.users username).isSome then
    .error .UserAlreadyConnected
  else
    .ok (NewSystemBroadcast now
      { c with users := mput c.users username u }
      (username ++ " entered " ++ c.name ++ "!"))

/-- newChannel create a new ChatChannel named `name`
(`newChannel`; the encoder comes from the server's `conf.Encoder`). -/
def newChannel (name : String) (enc : Option EncFun) : channel :=
  { name := name
  , encoder := enc
  , recv := []
  , log := []
  , users := []
  , running := true
  , stopClosed := false }

/-! ### Server (server.go) -/

/-- Ephemeral access token (`type accessToken`), binding a username to a
channel until `deadline`. -/
structure accessToken where
  username : String
  channel : String
  deadline : Nat
deriving DecidableEq, Repr

/-- The chat server (`type server`): the token table, the channel table,
the `running` flag and the `stop` channel. -/
structure server where
  tokens : List (String × accessToken)
  channels : List (String × channel)
  running : Bool
  stopClosed : Bool

/-- RequestToken generate a token for `username` on `chanName`
(`server.RequestToken`).  The 32 random bytes drawn from `crypto/rand`
and hex-encoded enter the model as the argument `tok`; the deadline is
`now + TokenDeadline`. -/
def RequestToken (s : server) (tok username chanName : String)
    (now tokenDeadline : Nat) : String × server :=
  let value : accessToken := ⟨username, chanName, now + tokenDeadline⟩
  (tok, { s with tokens := mput s.tokens tok value })

/-- CreateChannel create and start the channel named `name`
(`server.CreateChannel`); `enc` is the server configuration's `Encoder`. -/
def CreateChannel (s : server) (name : String) (enc : Option EncFun) :
    Except ChatError Unit × server :=
  if (mget s.channels name).isSome then
    (.error .DuplicatedChannel, s)
  else
    (.ok (), { s with channels := mput s.channels name (newChannel name enc) })

/-- GetChannel retrieve the channel named `name` (`server.GetChannel`). -/
def GetChannel (s : server) (name : String) : Except ChatError channel :=
  match mget s.channels name with
  | some c => .ok c
  | none => .error .InvalidChannel

/-- getToken consume `token`, removing it from the server, and return
the associated username and channel (`server.getToken`).  The deadline
is not inspected here. -/
def getToken (s : server) (token : String) :
    Except ChatError (String × String) × server :=
  match mget s.tokens token with
  | some val =>
      (.ok (val.username, val.channel),
        { s with tokens := mdel s.tokens token })
  | none => (.error .InvalidToken, s)

/-- Connect a user to the channel previously associated to `token`
(`server.Connect`): consume the token, resolve the channel, admit the
user.  The returned `List effect` collects every `Conn` operation the
call performs (there are none: in particular the connection is never
closed here).  `ConnectAndWait` differs only in running the reader loop
in the caller's goroutine. -/
def Connect (now : Nat) (s : server) (token : String) (connOk : Bool) :
    Except ChatError Unit × server × List effect :=
  match getToken s token with
  | (.error e, s1) => (.error e, s1, [])
  | (.ok (username, chanName), s1) =>
      match GetChannel s1 chanName with
      | .error e => (.error e, s1, [])
      | .ok c =>
          match ConnectUser now c username connOk with
          | .error e => (.error e, s1, [])
          | .ok c' =>
              (.ok (), { s1 with channels := mput s1.channels chanName c' }, [])

/-- Clean up every resource used by the chat server (`server.Close`):
one-shot on the `running` flag, closing `stop`; always returns `nil`. -/
def CloseS (s : server) : server :=
  if s.running then
    { s with running := false, stopClosed := true }
  else
    s

/-- The token arm of the cleanup goroutine (`server.cleanup`, case
`<-token.C`): delete every token whose deadline precedes `now`. -/
def tokenCleanupTick (s : server) (now : Nat) : server :=
  { s with tokens := s.tokens.filter (fun kv => !decide (kv.2.deadline < now)) }

/-- The channel arm of the cleanup goroutine (`server.cleanup`, case
`<-channel.C`): delete every channel that `IsClosed()`. -/
def channelCleanupTick (s : server) : server :=
  { s with channels := s.channels.filter (fun kv => !kv.2.IsClosed) }

/-- NewServerConf create a new chat server (`NewServerConf`). -/
def NewServerConf : server :=
  { tokens := [], channels := [], running := true, stopClosed := false }

/-! ### Server operation traces

To speak about "every later consumption" of a token, server histories
are reified as lists of operations applied in order.  Each constructor
invokes the corresponding function above, discarding its return value. -/

/-- One server-level operation. -/
inductive serverOp where
  | requestToken (tok username chanName : String) (now tokenDeadline : Nat)
  | consumeToken (tok : String)
  | connect (now : Nat) (tok : String) (connOk : Bool)
  | createChannel (name : String) (enc : Option EncFun)
  | closeServer
  | tokenTick (now : Nat)
  | channelTick

/-- Apply one operation to the server state. -/
def applyOp (op : serverOp) (s : server) : server :=
  match op with
  | .requestToken tok username chanName now d =>
      (RequestToken s tok username chanName now d).2
  | .consumeToken tok => (getToken s tok).2
  | .connect now tok ok => (Connect now s tok ok).2.1
  | .createChannel name enc => (CreateChannel s name enc).2
  | .closeServer => CloseS s
  | .tokenTick now => tokenCleanupTick s now
  | .channelTick => channelCleanupTick s

/-- Apply a list of operations in order. -/
def applyOps (ops : List serverOp) (s : server) : server :=
  match ops with
  | [] => s
  | op :: rest => applyOps rest (applyOp op s)

/-- Whether an operation mints the token value `t` (the only way a
consumed token value can reappear in the table). -/
def opMintsToken (op : serverOp) (t : String) : Bool :=
  match op with
  | .requestToken tok _ _ _ _ => tok = t
  | _ => false

/-! ### Helper lemmas about the server functions -/

theorem getToken_of_some (s : server) (t : String) (v : accessToken)
    (h : mget s.tokens t = some v) :
    getToken s t = (.ok (v.username, v.channel),
      { s with tokens := mdel s.tokens t }) := by
  simp [getToken, h]

theorem getToken_of_none (s : server) (t : String)
    (h : mget s.tokens t = none) :
    getToken s t = (.error .InvalidToken, s) := by
  simp [getToken, h]

/-- After `getToken`, the consumed value is gone from the table
(whether or not the consumption succeeded). -/
theorem getToken_tokens_absent (s : server) (t : String) :
    mget (getToken s t).2.tokens t = none := by
  cases hm : mget s.tokens t with
  | none => simp [getToken, hm]
  | some v => simp [getToken, hm, mget_mdel_self]

/-- The function `getToken` only ever deletes from the token table. -/
theorem getToken_preserves_absent (s : server) (t tok : String)
    (h : mget s.tokens t = none) :
    mget (getToken s tok).2.tokens t = none := by
  cases hm : mget s.tokens tok with
  | none => simpa [getToken, hm] using h
  | some v =>
      by_cases ht : t = tok
      · subst ht; simp [getToken, hm, mget_mdel_self]
      · simp [getToken, hm, mget_mdel_ne _ _ _ ht, h]

/-- The function `Connect` changes the token table exactly as its
`getToken` step does. -/
theorem Connect_tokens (now : Nat) (s : server) (tok : String)
    (connOk : Bool) :
    (Connect now s tok connOk).2.1.tokens = (getToken s tok).2.tokens := by
  unfold Connect
  cases hG : getToken s tok with
  | mk r s1 =>
      cases r with
      | error e => simp
      | ok p =>
          obtain ⟨username, chanName⟩ := p
          cases hC : GetChannel s1 chanName with
          | error e => simp [hC]
          | ok c =>
              cases hU : ConnectUser now c username connOk with
              | error e => simp [hC, hU]
              | ok c' => simp [hC, hU]

/-- The function `Connect` performs no operation at all on the caller's
`Conn`. -/
theorem Connect_effects (now : Nat) (s : server) (tok : String)
    (connOk : Bool) : (Connect now s tok connOk).2.2 = [] := by
  unfold Connect
  cases hG : getToken s tok with
  | mk r s1 =>
      cases r with
      | error e => simp
      | ok p =>
          obtain ⟨username, chanName⟩ := p
          cases hC : GetChannel s1 chanName with
          | error e => simp [hC]
          | ok c =>
              cases hU : ConnectUser now c username connOk with
              | error e => simp [hC, hU]
              | ok c' => simp [hC, hU]

/-- A token value that is not in the table stays out of it under every
server operation that does not mint that very value. -/
theorem absent_preserved (op : serverOp) (s : server) (t : String)
    (h : mget s.tokens t = none) (hop : opMintsToken op t = false) :
    mget (applyOp op s).tokens t = none := by
  cases op with
  | requestToken tok username chanName now d =>
      simp only [opMintsToken, decide_eq_false_iff_not] at hop
      have ht : t ≠ tok := fun h' => hop h'.symm
      simpa [applyOp, RequestToken, mget_mput_ne _ _ _ _ ht] using h
  | consumeToken tok =>
      simpa [applyOp] using getToken_preserves_absent s t tok h
  | connect now tok connOk =>
      simpa [applyOp, Connect_tokens] using
        getToken_preserves_absent s t tok h
  | createChannel name enc =>
      simp only [applyOp, CreateChannel]
      split <;> simpa using h
  | closeServer =>
      simp only [applyOp, CloseS]
      split <;> simpa using h
  | tokenTick now =>
      simpa [applyOp, tokenCleanupTick] using
        mget_filter_none s.tokens t _ h
  | channelTick =>
      simpa [applyOp, channelCleanupTick] using h

theorem absent_preserved_ops (ops : List serverOp) (s : server)
    (t : String) (h : mget s.tokens t = none)
    (hops : ∀ op ∈ ops, opMintsToken op t = false) :
    mget (applyOps ops s).tokens t = none := by
  induction ops generalizing s with
  | nil => simpa [applyOps] using h
  | cons op rest ih =>
      simp only [applyOps]
      exact ih (applyOp op s)
        (absent_preserved op s t h (hops op (List.mem_cons_self _ _)))
        (fun o ho => hops o (List.mem_cons_of_mem _ ho))

/-! ### C1 -/

/-- C1: token consumption is single-use.  If the table holds `t`, the
first `getToken t` (the consumption step of `Connect`/`ConnectAndWait`)
returns the stored username and channel and removes `t`; after any
sequence of further server operations that does not mint the same
value again, consuming `t` returns `InvalidToken`. -/
theorem token_single_use (s : server) (t : String) (v : accessToken)
    (ops : List serverOp)
    (h : mget s.tokens t = some v)
    (hops : ∀ op ∈ ops, opMintsToken op t = false) :
    (getToken s t).1 = .ok (v.username, v.channel) ∧
    mget (getToken s t).2.tokens t = none ∧
    (getToken (applyOps ops (getToken s t).2) t).1 =
      .error .InvalidToken := by
  refine ⟨by simp [getToken, h], getToken_tokens_absent s t, ?_⟩
  have habs : mget (applyOps ops (getToken s t).2).tokens t = none :=
    absent_preserved_ops ops (getToken s t).2 t
      (getToken_tokens_absent s t) hops
  rw [getToken_of_none _ _ habs]

/-- A server holding one pending token, for concrete runs. -/
def c1Server : server :=
  { tokens := [("tok", ⟨"alice", "room", 30⟩)]
  , channels := []
  , running := true
  , stopClosed := false }

/-- A concrete run of `token_single_use`: one stored token, then a
cleanup tick and a server close between the two consumptions. -/
theorem token_single_use_witness :
    (getToken c1Server "tok").1 = .ok ("alice", "room") ∧
    mget (getToken c1Server "tok").2.tokens "tok" = none ∧
    (getToken (applyOps [serverOp.tokenTick 100, serverOp.closeServer]
        (getToken c1Server "tok").2) "tok").1 = .error .InvalidToken :=
  token_single_use c1Server "tok" ⟨"alice", "room", 30⟩
    [serverOp.tokenTick 100, serverOp.closeServer]
    (by decide) (by decide)

/-! ### C4 -/

/-- C4: expiry is enforced by the cleanup pass alone.  A cleanup tick
running at a time `now` strictly after a stored token's deadline deletes
it, so consuming it afterwards yields `InvalidToken`; consumption itself
never looks at the deadline, so a stored token is consumable no matter
how its deadline compares to the clock. -/
theorem token_expiry (s : server) (t : String) (v : accessToken)
    (now : Nat)
    (hnd : (s.tokens.map Prod.fst).Nodup)
    (h : mget s.tokens t = some v) :
    (v.deadline < now →
        mget (tokenCleanupTick s now).tokens t = none ∧
        (getToken (tokenCleanupTick s now) t).1 = .error .InvalidToken) ∧
    (getToken s t).1 = .ok (v.username, v.channel) := by
  constructor
  · intro hd
    have habs : mget (tokenCleanupTick s now).tokens t = none := by
      have := mget_filter_of_nodup s.tokens t v
        (fun kv => !decide (kv.2.deadline < now)) hnd h
      simpa [tokenCleanupTick, hd] using this
    exact ⟨habs, by rw [getToken_of_none _ _ habs]⟩
  · simp [getToken, h]

/-- A server holding one token that is already past its deadline. -/
def c4Server : server :=
  { tokens := [("tok", ⟨"alice", "room", 5⟩)]
  , channels := []
  , running := true
  , stopClosed := false }

/-- A concrete run of `token_expiry`: deadline 5, cleanup tick at 10. -/
theorem token_expiry_witness :
    ((5 : Nat) < 10 →
        mget (tokenCleanupTick c4Server 10).tokens "tok" = none ∧
        (getToken (tokenCleanupTick c4Server 10) "tok").1 =
          .error .InvalidToken) ∧
    (getToken c4Server "tok").1 = .ok ("alice", "room") :=
  token_expiry c4Server "tok" ⟨"alice", "room", 5⟩ 10
    (by decide) (by decide)

/-- Running `Connect` on a server whose table does not hold `tok` fails with
`InvalidToken`. -/
theorem Connect_invalid_of_absent (now : Nat) (s : server) (tok : String)
    (connOk : Bool) (h : mget s.tokens tok = none) :
    (Connect now s tok connOk).1 = .error .InvalidToken := by
  unfold Connect
  rw [getToken_of_none _ _ h]

/-! ### C5 -/

/-- C5: when `Connect` fails at any step (token absent, channel absent,
or admission rejected) it performs no operation on the caller's `Conn`
(in particular it never closes it), the token is no longer in the table,
and a retry with the same token yields `InvalidToken`. -/
theorem connect_failure (now now2 : Nat) (s : server) (tok : String)
    (connOk1 connOk2 : Bool) (e : ChatError)
    (h : (Connect now s tok connOk1).1 = .error e) :
    (Connect now s tok connOk1).2.2 = [] ∧
    mget (Connect now s tok connOk1).2.1.tokens tok = none ∧
    (Connect now2 (Connect now s tok connOk1).2.1 tok connOk2).1 =
      .error .InvalidToken := by
  have habs : mget (Connect now s tok connOk1).2.1.tokens tok = none := by
    rw [Connect_tokens]
    exact getToken_tokens_absent s tok
  exact ⟨Connect_effects now s tok connOk1, habs,
    Connect_invalid_of_absent now2 _ tok connOk2 habs⟩

/-- A server with no pending tokens, on which any `Connect` fails. -/
def c5Server : server :=
  { tokens := [], channels := [], running := true, stopClosed := false }

/-- A concrete run of `connect_failure`: the very first `Connect`
presents an unknown token and fails with `InvalidToken`. -/
theorem connect_failure_witness :
    (Connect 0 c5Server "ghost" true).2.2 = [] ∧
    mget (Connect 0 c5Server "ghost" true).2.1.tokens "ghost" = none ∧
    (Connect 1 (Connect 0 c5Server "ghost" true).2.1 "ghost" true).1 =
      .error .InvalidToken :=
  connect_failure 0 1 c5Server "ghost" true true .InvalidToken (by rfl)

/-! ### C3 -/

/-- The claim states that after `Server.Close()` rooms are unreachable
through the server.  The code's `Close` only flips `running` and closes
`stop`; the channel table is untouched and `GetChannel` does not consult
`running`, so the amended statement is: `Close` stops the cleanup
goroutine but the rooms stay exactly as reachable as before. -/
theorem server_close_keeps_rooms (s : server) (n : String) :
    GetChannel (CloseS s) n = GetChannel s n ∧
    (CloseS s).channels = s.channels ∧
    (CloseS s).running = false := by
  by_cases hr : s.running <;> simp [CloseS, hr, GetChannel]

/-- A server with one open room, used to refute C3 as stated. -/
def c3Server : server :=
  { tokens := []
  , channels := [("room", newChannel "room" none)]
  , running := true
  , stopClosed := false }

/-- Counterexample to C3 as stated: right after `Close()` the room is
still returned by `GetChannel` (the claim requires it to no longer
yield the room). -/
theorem server_close_rooms_cex :
    GetChannel (CloseS c3Server) "room" = .ok (newChannel "room" none) ∧
    (CloseS c3Server).channels = c3Server.channels := by
  constructor <;> rfl

/-! ### Helper lemmas about the channel functions -/

theorem mem_of_mem_mdel {β : Type} {m : List (String × β)} {k : String}
    {p : String × β} (h : p ∈ mdel m k) : p ∈ m := by
  induction m with
  | nil => simpa [mdel] using h
  | cons kv rest ih =>
      by_cases hk : kv.1 = k
      · simp only [mdel, if_pos hk] at h
        exact List.mem_cons_of_mem _ (ih h)
      · simp only [mdel, if_neg hk] at h
        rcases List.mem_cons.mp h with h | h
        · exact h ▸ List.mem_cons_self _ _
        · exact List.mem_cons_of_mem _ (ih h)

/-- What `RemoveUserUnsafe` does when it does not panic: it deletes the
entry, queues the exit broadcast, touches nothing else, and performs no
`SendStr`. -/
theorem RemoveUserUnsafe_spec (now : Nat) (c : channel)
    (username : String) (c' : channel) (effs : List effect)
    (h : RemoveUserUnsafe now c username = some (c', effs)) :
    c'.users = mdel c.users username ∧ c'.log = c.log ∧
    c'.running = c.running ∧ c'.stopClosed = c.stopClosed ∧
    c'.encoder = c.encoder ∧ c'.name = c.name ∧
    (∀ n p, effect.send n p ∉ effs) := by
  unfold RemoveUserUnsafe at h
  cases hm : mget c.users username with
  | none => rw [hm] at h; cases h
  | some u =>
      rw [hm] at h
      simp only [Option.some.injEq, Prod.mk.injEq] at h
      obtain ⟨h1, h2⟩ := h
      subst h1
      refine ⟨by simp [NewSystemBroadcast, newMessage],
        by simp [NewSystemBroadcast, newMessage],
        by simp [NewSystemBroadcast, newMessage],
        by simp [NewSystemBroadcast, newMessage],
        by simp [NewSystemBroadcast, newMessage],
        by simp [NewSystemBroadcast, newMessage], ?_⟩
      intro n p hp
      rw [← h2] at hp
      unfold user.CloseU at hp
      by_cases hr : u.running
      · simp [hr] at hp
      · simp [hr] at hp

/-- What one send to a present user does (`messageUserUsafe` on a
non-nil `*user`). -/
theorem messageUserUsafe_spec (now : Nat) (c : channel) (u : user)
    (msgStr : String) (c' : channel) (effs : List effect)
    (h : messageUserUsafe now c (some u) msgStr = some (c', effs)) :
    c'.log = c.log ∧ c'.running = c.running ∧
    c'.stopClosed = c.stopClosed ∧ c'.encoder = c.encoder ∧
    c'.name = c.name ∧
    (∀ n p, effect.send n p ∈ effs → n = u.name ∧ p = msgStr) ∧
    (c'.users = c.users ∨ c'.users = mdel c.users u.name) := by
  simp only [messageUserUsafe] at h
  by_cases hok : u.connOk
  · rw [if_pos hok] at h
    simp only [Option.some.injEq, Prod.mk.injEq] at h
    obtain ⟨h1, h2⟩ := h
    subst h1
    refine ⟨rfl, rfl, rfl, rfl, rfl, ?_, Or.inl rfl⟩
    intro n p hp
    rw [← h2] at hp
    simp only [List.mem_singleton, effect.send.injEq] at hp
    exact hp
  · rw [if_neg hok] at h
    cases hR : RemoveUserUnsafe now c u.name with
    | none => rw [hR] at h; cases h
    | some q =>
        obtain ⟨c2, effs2⟩ := q
        rw [hR] at h
        simp only [Option.some.injEq, Prod.mk.injEq] at h
        obtain ⟨h1, h2⟩ := h
        subst h1
        obtain ⟨hu, hl, hr, hs, he, hn, hns⟩ :=
          RemoveUserUnsafe_spec now c u.name c2 effs2 hR
        refine ⟨hl, hr, hs, he, hn, ?_, Or.inr hu⟩
        intro n p hp
        rw [← h2] at hp
        rcases List.mem_cons.mp hp with hp | hp
        · injection hp with a b; exact ⟨a, b⟩
        · exact absurd hp (hns n p)

/-- The broadcast/probe loop delivers (attempts `Conn.SendStr`) to every
listed member, under the map well-formedness invariants. -/
theorem sendLoop_sends (now : Nat) (msgStr : String) (keys : List String)
    (c : channel) (hWF : WF c) (hnd : keys.Nodup)
    (hkeys : ∀ k ∈ keys, (mget c.users k).isSome) :
    ∃ r, sendLoop now c keys msgStr = some r ∧
      ∀ k ∈ keys, effect.send k msgStr ∈ r.2 := by
  induction keys generalizing c with
  | nil => exact ⟨(c, []), rfl, by simp⟩
  | cons k rest ih =>
      have hks : (mget c.users k).isSome := hkeys k (List.mem_cons_self _ _)
      obtain ⟨u, hu⟩ := Option.isSome_iff_exists.mp hks
      have hmem : (k, u) ∈ c.users := mget_mem _ _ _ hu
      have hname : u.name = k := hWF _ hmem
      by_cases hok : u.connOk
      · have hstep : messageUserUsafe now c (mget c.users k) msgStr =
            some (c, [effect.send k msgStr]) := by
          rw [hu]
          simp [messageUserUsafe, hok, hname]
        obtain ⟨r, hr, hmem2⟩ := ih c hWF (List.Nodup.of_cons hnd)
          (fun k' hk' => hkeys k' (List.mem_cons_of_mem _ hk'))
        refine ⟨(r.1, [effect.send k msgStr] ++ r.2), ?_, ?_⟩
        · simp only [sendLoop, hstep]
          rw [hr]
        · intro k' hk'
          rcases List.mem_cons.mp hk' with hk' | hk'
          · subst hk'; simp
          · simp only [List.mem_append]
            exact Or.inr (hmem2 k' hk')
      · have hstep : messageUserUsafe now c (mget c.users k) msgStr =
            some (NewSystemBroadcast now { c with users := mdel c.users k }
                    (k ++ " exited " ++ c.name ++ "..."),
                  effect.send k msgStr :: u.CloseU.2) := by
          rw [hu]
          simp [messageUserUsafe, hok, RemoveUserUnsafe, hname, hu]
        have hWF3 : WF (NewSystemBroadcast now
            { c with users := mdel c.users k }
            (k ++ " exited " ++ c.name ++ "...")) := by
          intro p hp
          apply hWF
          have hp' : p ∈ mdel c.users k := by
            simpa [NewSystemBroadcast, newMessage] using hp
          exact mem_of_mem_mdel hp'
        have hknotin : k ∉ rest := (List.nodup_cons.mp hnd).1
        have hkeys3 : ∀ k' ∈ rest,
            (mget (NewSystemBroadcast now { c with users := mdel c.users k }
              (k ++ " exited " ++ c.name ++ "...")).users k').isSome := by
          intro k' hk'
          have hne : k' ≠ k := fun e => hknotin (e ▸ hk')
          have heq : mget (mdel c.users k) k' = mget c.users k' :=
            mget_mdel_ne _ _ _ hne
          simpa [NewSystemBroadcast, newMessage, heq] using
            hkeys k' (List.mem_cons_of_mem _ hk')
        obtain ⟨r, hr, hmem2⟩ := ih _ hWF3 (List.Nodup.of_cons hnd) hkeys3
        refine ⟨(r.1, (effect.send k msgStr :: u.CloseU.2) ++ r.2), ?_, ?_⟩
        · simp only [sendLoop, hstep]
          rw [hr]
        · intro k' hk'
          rcases List.mem_cons.mp hk' with hk' | hk'
          · subst hk'; simp
          · simp only [List.mem_append]
            exact Or.inr (hmem2 k' hk')

/-- The removal loop of `channel.Close` does not touch the `running` and
`stopClosed` flags. -/
theorem closeUsersLoop_flags (now : Nat) (keys : List String)
    (c c' : channel) (effs : List effect)
    (h : closeUsersLoop now c keys = some (c', effs)) :
    c'.running = c.running ∧ c'.stopClosed = c.stopClosed := by
  induction keys generalizing c effs with
  | nil =>
      simp only [closeUsersLoop, Option.some.injEq, Prod.mk.injEq] at h
      rw [← h.1]
      exact ⟨rfl, rfl⟩
  | cons k rest ih =>
      unfold closeUsersLoop at h
      cases hR : RemoveUserUnsafe now c k with
      | none => rw [hR] at h; cases h
      | some q =>
          obtain ⟨c1, effs1⟩ := q
          simp only [hR] at h
          cases hL : closeUsersLoop now c1 rest with
          | none => rw [hL] at h; cases h
          | some q2 =>
              obtain ⟨c2, effs2⟩ := q2
              simp only [hL, Option.some.injEq, Prod.mk.injEq] at h
              obtain ⟨h1, h2⟩ := h
              subst h1
              obtain ⟨_, _, hr1, hs1, _, _, _⟩ :=
                RemoveUserUnsafe_spec now c k c1 effs1 hR
              obtain ⟨hr2, hs2⟩ := ih c1 effs2 hL
              exact ⟨hr2.trans hr1, hs2.trans hs1⟩

/-! ### C9 -/

/-- C9: `Close()` is idempotent on the server, on a user and on a
channel.  A second and any later `Close` returns `nil` without effects
and leaves the state exactly as the first call left it (the first-call
behaviour is the `running`-flag guard / CAS). -/
theorem close_idempotent (s : server) (u : user) (now now2 : Nat)
    (c c1 : channel) (effs : List effect)
    (h : channel.CloseC now c = some (c1, effs)) :
    CloseS (CloseS s) = CloseS s ∧
    user.CloseU (user.CloseU u).1 = ((user.CloseU u).1, []) ∧
    channel.CloseC now2 c1 = some (c1, []) := by
  refine ⟨?_, ?_, ?_⟩
  · by_cases hr : s.running <;> simp [CloseS, hr]
  · by_cases hu : u.running <;> simp [user.CloseU, hu]
  · unfold channel.CloseC at h
    by_cases hr : c.running
    · rw [if_pos hr] at h
      have hflag := (closeUsersLoop_flags now _ _ c1 effs h).1
      simp only at hflag
      simp [channel.CloseC, hflag]
    · rw [if_neg hr] at h
      simp only [Option.some.injEq, Prod.mk.injEq] at h
      obtain ⟨h1, h2⟩ := h
      subst h1
      simp [channel.CloseC, hr]

/-- A connected user with a live connection. -/
def wUser : user := { name := "alice", connOk := true, running := true }

/-- A running channel with `alice` as its only member. -/
def wChan : channel :=
  { name := "room"
  , encoder := none
  , recv := []
  , log := []
  , users := [("alice", wUser)]
  , running := true
  , stopClosed := false }

/-- The state `channel.CloseC 0 wChan` leaves behind: `stop` closed,
`alice` removed and closed, her exit broadcast queued. -/
def wChanClosed : channel :=
  { name := "room"
  , encoder := none
  , recv := [⟨0, "alice exited room...", "", ""⟩]
  , log := []
  , users := []
  , running := false
  , stopClosed := true }

/-- A concrete run of `close_idempotent` on a server, a user and a
one-member channel. -/
theorem close_idempotent_witness :
    CloseS (CloseS c5Server) = CloseS c5Server ∧
    user.CloseU (user.CloseU wUser).1 = ((user.CloseU wUser).1, []) ∧
    channel.CloseC 1 wChanClosed = some (wChanClosed, []) :=
  close_idempotent c5Server wUser 0 1 wChan wChanClosed
    [effect.connClose "alice"] (by rfl)

/-! ### C10 -/

/-- C10: dispatching a whisper whose `to` names no current member is NOT
safe.  `handleMessage` reads `c.users[msg.To]`, obtains the nil `*user`,
and `u.SendStr` dereferences it: the dispatcher goroutine panics
(modelled by `none`).  Concretely: the room holds only `alice`, and a
`NewSystemWhisper("hi", "ghost")` is dispatched after `ghost` left. -/
theorem whisper_missing_member_panics :
    handleMessage 0 wChan ⟨0, "hi", "", "ghost"⟩ = none := by
  rfl

/-! ### C2 -/

/-- C2 amended: when the room's encoder returns the empty string for a
message, no member's `Conn.SendStr` is called with it and the room is
otherwise left alone — but a broadcast (empty `to`) message HAS already
been appended to the room's log, because `handleMessage` appends to the
log before consulting the encoder. -/
theorem encoder_suppression (now : Nat) (c : channel) (m : message)
    (f : EncFun) (hEnc : c.encoder = some f)
    (hSup : f m.Date m.Message m.From m.To = "") :
    handleMessage now c m =
      some ({ c with
        log := if m.To.length = 0 then c.log ++ [m] else c.log }, []) := by
  by_cases h0 : m.To.length = 0
  · simp [handleMessage, h0, hEnc, hSup]
  · simp [handleMessage, h0, hEnc, hSup]
    rw [← hEnc]

/-- A room whose encoder suppresses every message. -/
def c2Chan : channel :=
  { name := "room"
  , encoder := some (fun _ _ _ _ => "")
  , recv := []
  , log := []
  , users := [("alice", wUser)]
  , running := true
  , stopClosed := false }

/-- A broadcast message fed to the suppressing encoder. -/
def c2Msg : message := ⟨0, "hello", "bob", ""⟩

/-- Counterexample to C2 as stated: with a suppressing encoder no send
happens (second component `[]`), yet the broadcast message IS in the
room's log afterwards, where the claim requires it not to be appended. -/
theorem encoder_suppression_log_cex :
    (handleMessage 0 c2Chan c2Msg).map (fun p => (p.1.log, p.2)) =
      some ([c2Msg], []) := by
  rfl

/-- A concrete run of `encoder_suppression`. -/
theorem encoder_suppression_witness :
    handleMessage 0 c2Chan c2Msg =
      some ({ c2Chan with
        log := if c2Msg.To.length = 0 then c2Chan.log ++ [c2Msg]
               else c2Chan.log }, []) :=
  encoder_suppression 0 c2Chan c2Msg (fun _ _ _ _ => "") rfl rfl

/-! ### C6 -/

/-- C6: a dispatched broadcast (empty `to`) on a room with no custom
encoder is sent to every current member, the sender included; the
rendering is the default format — date, `" > "`, `"from: "` (omitted
for an empty sender) and the text — so it contains the text and, when
non-empty, the sender's name. -/
theorem broadcast_reaches_all (now : Nat) (c : channel) (m : message)
    (c' : channel) (effs : List effect) (k : String)
    (hTo : m.To.length = 0) (hEnc : c.encoder = none)
    (hWF : WF c) (hND : (c.users.map Prod.fst).Nodup)
    (h : handleMessage now c m = some (c', effs))
    (hk : k ∈ c.users.map Prod.fst) :
    effect.send k m.Encode ∈ effs ∧
    m.Encode = formatDate m.Date ++ " > " ++
      (if m.From.length > 0 then m.From ++ ": " else "") ++ m.Message ∧
    (∃ a, m.Encode = a ++ m.Message) ∧
    (m.From.length > 0 → ∃ a b, m.Encode = a ++ m.From ++ b) := by
  have hred : handleMessage now c m =
      sendLoop now { c with log := c.log ++ [m] }
        (c.users.map Prod.fst) m.Encode := by
    simp [handleMessage, hTo, hEnc]
  rw [hred] at h
  obtain ⟨r, hr, hmemAll⟩ :=
    sendLoop_sends now m.Encode (c.users.map Prod.fst)
      { c with log := c.log ++ [m] } hWF hND
      (fun k' hk' => mget_isSome_of_mem_keys c.users k' hk')
  rw [hr] at h
  simp only [Option.some.injEq] at h
  have heffs : r.2 = effs := congrArg Prod.snd h
  refine ⟨heffs ▸ hmemAll k hk, rfl, ⟨_, rfl⟩, ?_⟩
  intro hFrom
  refine ⟨formatDate m.Date ++ " > ", ": " ++ m.Message, ?_⟩
  simp only [message.Encode, if_pos hFrom]
  simp [String.append_assoc]

/-- A second connected member. -/
def bobU : user := { name := "bob", connOk := true, running := true }

/-- A room with two members and no custom encoder. -/
def c6Chan : channel :=
  { name := "room"
  , encoder := none
  , recv := []
  , log := []
  , users := [("alice", wUser), ("bob", bobU)]
  , running := true
  , stopClosed := false }

/-- A broadcast sent by `bob`. -/
def c6Msg : message := ⟨7, "hi there", "bob", ""⟩

/-- The effects of dispatching `c6Msg` on `c6Chan`. -/
def c6Effs : List effect :=
  [effect.send "alice" c6Msg.Encode, effect.send "bob" c6Msg.Encode]

/-- A concrete run of `broadcast_reaches_all`: `alice` is sent `bob`'s
broadcast. -/
theorem broadcast_reaches_all_witness :
    effect.send "alice" c6Msg.Encode ∈ c6Effs ∧
    c6Msg.Encode = formatDate c6Msg.Date ++ " > " ++
      (if c6Msg.From.length > 0 then c6Msg.From ++ ": " else "") ++
      c6Msg.Message ∧
    (∃ a, c6Msg.Encode = a ++ c6Msg.Message) ∧
    (c6Msg.From.length > 0 →
      ∃ a b, c6Msg.Encode = a ++ c6Msg.From ++ b) :=
  broadcast_reaches_all 0 c6Chan c6Msg
    { c6Chan with log := [c6Msg] } c6Effs "alice"
    rfl rfl (show ∀ p ∈ c6Chan.users, p.2.name = p.1 by decide)
    (by decide) (by rfl) (by decide)

/-! ### C7 -/

/-- C7: dispatching a whisper (non-empty `to`) leaves the rest of the
room unchanged: the log is untouched, every `SendStr` performed names
the recipient `to`, and every member other than `to` is still mapped
exactly as before. -/
theorem whisper_frame (now : Nat) (c c' : channel) (m : message)
    (effs : List effect) (nm payload k : String)
    (hTo : m.To.length > 0)
    (hWF : WF c)
    (h : handleMessage now c m = some (c', effs)) :
    c'.log = c.log ∧
    (effect.send nm payload ∈ effs → nm = m.To) ∧
    (k ≠ m.To → mget c'.users k = mget c.users k) := by
  have h0 : ¬ m.To.length = 0 := Nat.pos_iff_ne_zero.mp hTo
  cases hE : c.encoder with
  | none =>
      simp only [handleMessage, h0, if_neg, ite_false, hE, if_pos hTo] at h
      cases hm : mget c.users m.To with
      | none => simp [messageUserUsafe, hm] at h
      | some u =>
          rw [hm] at h
          have huname : u.name = m.To := hWF _ (mget_mem _ _ _ hm)
          obtain ⟨hl, _, _, _, _, hsend, husers⟩ :=
            messageUserUsafe_spec now c u _ c' effs h
          refine ⟨hl, fun hin => ((hsend nm payload hin).1).trans huname, ?_⟩
          intro hkne
          rcases husers with hu | hu
          · rw [hu]
          · rw [hu, huname]
            exact mget_mdel_ne _ _ _ hkne
  | some enc =>
      simp only [handleMessage, h0, if_neg, ite_false, hE] at h
      by_cases hs : (enc m.Date m.Message m.From m.To).length = 0
      · simp only [hs, if_pos, ite_true, Option.some.injEq,
          Prod.mk.injEq] at h
        obtain ⟨h1, h2⟩ := h
        subst h1
        exact ⟨rfl, fun hin => absurd hin (by rw [← h2]; simp), fun _ => rfl⟩
      · simp only [hs, if_neg, ite_false, if_pos hTo] at h
        cases hm : mget c.users m.To with
        | none => simp [messageUserUsafe, hm] at h
        | some u =>
            rw [hm] at h
            have huname : u.name = m.To := hWF _ (mget_mem _ _ _ hm)
            obtain ⟨hl, _, _, _, _, hsend, husers⟩ :=
              messageUserUsafe_spec now c u _ c' effs h
            refine ⟨hl, fun hin => ((hsend nm payload hin).1).trans huname, ?_⟩
            intro hkne
            rcases husers with hu | hu
            · rw [hu]
            · rw [hu, huname]
              exact mget_mdel_ne _ _ _ hkne

/-- A system whisper to `alice` (`NewSystemWhisper("psst", "alice")`). -/
def c7Msg : message := ⟨3, "psst", "", "alice"⟩

/-- A concrete run of `whisper_frame`: the whisper reaches only `alice`
and leaves log and other members alone. -/
theorem whisper_frame_witness :
    wChan.log = wChan.log ∧
    (effect.send "alice" c7Msg.Encode ∈
        [effect.send "alice" c7Msg.Encode] → "alice" = c7Msg.To) ∧
    ("bob" ≠ c7Msg.To → mget wChan.users "bob" = mget wChan.users "bob") :=
  whisper_frame 0 wChan wChan c7Msg [effect.send "alice" c7Msg.Encode]
    "alice" c7Msg.Encode "bob" (by decide)
    (show ∀ p ∈ wChan.users, p.2.name = p.1 by decide) (by rfl)

/-! ### C8 -/

/-- C8: a room with zero members when the idle ticker fires closes
itself — `checkConnections` finds the member set empty and calls
`Close`, making `IsClosed()` true — and once the server's room-cleanup
pass runs, the room is evicted, so `GetChannel` on its name returns
`InvalidChannel`. -/
theorem idle_empty_room_closes (now : Nat) (c c' : channel)
    (effs : List effect) (s : server) (n : String)
    (hU : c.users = [])
    (hc : checkConnections now c = some (c', effs))
    (hnd : (s.channels.map Prod.fst).Nodup)
    (hmem : mget s.channels n = some c') :
    c'.IsClosed = true ∧ effs = [] ∧
    GetChannel (channelCleanupTick s) n = .error .InvalidChannel := by
  have hcc : checkConnections now c =
      some ((if c.running
        then { c with running := false, stopClosed := true }
        else c), []) := by
    unfold checkConnections channel.CloseC
    by_cases hr : c.running
    · simp [sendLoop, hU, hr, closeUsersLoop]
    · simp [sendLoop, hU, hr]
  rw [hcc] at hc
  simp only [Option.some.injEq, Prod.mk.injEq] at hc
  obtain ⟨h1, h2⟩ := hc
  have hclosed : channel.IsClosed c' = true := by
    rw [← h1]
    by_cases hr : c.running <;> simp [channel.IsClosed, hr]
  refine ⟨hclosed, h2.symm, ?_⟩
  have hfil := mget_filter_of_nodup s.channels n c'
    (fun kv => !kv.2.IsClosed) hnd hmem
  simp only [hclosed, Bool.not_true, Bool.false_eq_true, if_neg,
    ite_false] at hfil
  simp only [channelCleanupTick, GetChannel]
  rw [hfil]

/-- An empty, running room. -/
def c8Chan : channel := newChannel "empty" none

/-- The same room after its idle tick closed it. -/
def c8Closed : channel :=
  { c8Chan with running := false, stopClosed := true }

/-- A server whose table maps `"empty"` to the closed room. -/
def c8Server : server :=
  { tokens := []
  , channels := [("empty", c8Closed)]
  , running := true
  , stopClosed := false }

/-- A concrete run of `idle_empty_room_closes`. -/
theorem idle_empty_room_closes_witness :
    c8Closed.IsClosed = true ∧ ([] : List effect) = [] ∧
    GetChannel (channelCleanupTick c8Server) "empty" =
      .error .InvalidChannel :=
  idle_empty_room_closes 5 c8Chan c8Closed [] c8Server "empty"
    rfl (by rfl) (by decide) rfl

end GoChat
